import Mathlib

/-!
Verification of the HelenOS kernel console (`kernel/generic/src/console/kconsole.c`).

C strings are modelled as `List Nat`: the bytes strictly before the terminating
NUL.  Reading any index past the end of the list yields the byte 0, which models
the NUL terminator and the zero-initialised static storage that follows the
string in the source.  Well-formed string values contain no 0 byte.
-/

/-- Read byte `i` of a C string; past the end we read the NUL terminator. -/
def cidx (s : List Nat) (i : Nat) : Nat := s.getD i 0

/-- Length of a raw byte buffer up to the first NUL, as C `strlen`. -/
def cstrlen : List Nat → Nat
  | [] => 0
  | b :: rest => if b = 0 then 0 else cstrlen rest + 1

/-- The string value held in a raw byte buffer: the bytes before the first NUL. -/
def cstr_val (s : List Nat) : List Nat := s.takeWhile (fun b => b ≠ 0)

/-- C `strncmp` on the list model: compare at most `n` bytes, stopping at a NUL
on either side.  Only the sign of the result is ever used by the source. -/
def strncmp : List Nat → List Nat → Nat → Int
  | _, _, 0 => 0
  | [], [], _ + 1 => 0
  | [], y :: _, _ + 1 => if y = 0 then 0 else -1
  | x :: _, [], _ + 1 => if x = 0 then 0 else 1
  | x :: a, y :: b, n + 1 =>
      if x = y then (if x = 0 then 0 else strncmp a b n)
      else if x < y then -1 else 1

/-- The `isspace` predicate from the kernel headers: space and the standard C whitespace bytes. -/
def isspace (c : Nat) : Bool := c = 32 ∨ c = 9 ∨ c = 10 ∨ c = 11 ∨ c = 12 ∨ c = 13

/-- Argument type tags, as `ARG_TYPE_*` in `console/cmd.h`. -/
inductive arg_type where
  | string
  | int
  | var
  | invalid
deriving DecidableEq, Repr

/-- One argument slot of a command descriptor (`cmd_arg_t`): the declared type,
the capacity of the caller-supplied buffer, and the mutable output fields
(`buffer` contents, `intval`, `vartype`) written by the parser. -/
structure cmd_arg where
  type : arg_type
  len : Nat
  buffer : List Nat
  intval : Nat
  vartype : arg_type
deriving DecidableEq, Repr

/-- A command descriptor (`cmd_info_t`).  `addr` stands for the address of the
caller-owned structure and is the identity used by pointer comparisons. -/
structure cmd_info where
  addr : Nat
  name : List Nat
  description : List Nat
  argc : Nat
  argv : List cmd_arg
deriving DecidableEq, Repr

/-- The duplicate scan of `cmd_register`: walk the registry; an entry that is
the very same instance, or whose name compares equal under
`strncmp(hlp->name, cmd->name, max(strlen(cmd->name), strlen(hlp->name)))`,
refuses the insertion. -/
def cmd_register_scan : List cmd_info → cmd_info → Bool
  | [], _ => true
  | hlp :: rest, cmd =>
      if hlp.addr = cmd.addr then false
      else if strncmp hlp.name cmd.name (max cmd.name.length hlp.name.length) = 0 then false
      else cmd_register_scan rest cmd

/-- The `cmd_register` operation: returns `(0/1 as Bool, new registry)`.  On success the
descriptor's link is appended to the registry list; on any collision the
registry is left untouched. -/
def cmd_register (registry : List cmd_info) (cmd : cmd_info) : Bool × List cmd_info :=
  if cmd_register_scan registry cmd then (true, registry ++ [cmd])
  else (false, registry)

/-! ### Tokenisation: `parse_argument` -/
/-- The leading-whitespace scan of `parse_argument`: advance `i` while it is
inside the line and points at whitespace; the fuel bounds the loop by `len`. -/
def pa_skip (cmdline : List Nat) (len : Nat) : Nat → Nat → Nat
  | 0, i => i
  | fuel + 1, i =>
      if i < len then
        (if isspace (cidx cmdline i) then pa_skip cmdline len fuel (i + 1) else i)
      else i

/-- The token scan of `parse_argument`: advance `i` while it is inside the line
and points at a non-whitespace byte; returns the first index after the token. -/
def pa_end (cmdline : List Nat) (len : Nat) : Nat → Nat → Nat
  | 0, i => i
  | fuel + 1, i =>
      if i < len then
        (if isspace (cidx cmdline i) then i else pa_end cmdline len fuel (i + 1))
      else i

/-- The `parse_argument` scanner: find the next whitespace-delimited token at or after
`start`.  On success returns `(start', end')`, the inclusive index range of the
token, exactly the two output parameters of the source; on failure (no
non-whitespace byte before `len`) returns `none`. -/
def parse_argument (cmdline : List Nat) (len start : Nat) : Option (Nat × Nat) :=
  let s := pa_skip cmdline len len start
  if s < len then some (s, pa_end cmdline len len (s + 1) - 1)
  else none

/-- Whether `n` successive tokens can be extracted starting at index `start`, stepping
as `parse_cmdline` does (`start = end + 1` between tokens). -/
def has_tokens (cmdline : List Nat) (len : Nat) : Nat → Nat → Bool
  | _, 0 => true
  | start, n + 1 =>
      match parse_argument cmdline len start with
      | none => false
      | some (_, e) => has_tokens cmdline len (e + 1) n

/-! ### Integer arguments: `parse_int_arg` -/
/-- Outcome of the external `symtab_addr_lookup` collaborator: success with an
address (`EOK`), not found (`ENOENT`), duplicate symbol (`EOVERFLOW`), or no
symbol information (any other return value). -/
inductive SymResult where
  | eok (addr : Nat)
  | enoent
  | eoverflow
  | enotsup
deriving DecidableEq, Repr

/-- The error messages the parser can print before giving up; the model returns
them in place of the C code's `printf` + failure return. -/
inductive kerr where
  | no_token
  | unknown_command
  | too_few_arguments
  | too_many_arguments
  | symbol_not_found
  | duplicate_symbol
  | no_symbol_information
  | unrecognized_var_argument
  | invalid_argument_type
deriving DecidableEq, Repr

/-- External collaborators of the parser: the symbol table, kernel memory reads
(one machine word at an address), the library `atoi`, and the
`MAX_SYMBOL_NAME` capacity of the static symbol-name buffer. -/
structure kenv where
  symtab : List Nat → SymResult
  mem : Nat → Nat
  atoi : List Nat → Nat
  maxSym : Nat

/-- The `parse_int_arg` conversion on the token starting at `text` with length `len`.

Mirrors the source exactly: strip a leading `&` or `*` sigil; if the remainder
does not start with a digit, copy it into the symbol-name buffer and look it
up — the `switch` on the lookup result returns failure in `ENOENT`,
`EOVERFLOW` and `default` alike, so a successful lookup (`EOK`) also falls into
the `default` branch and fails with the no-symbol-information message; the
assignments after the `switch` that would produce the address / loaded word /
doubly-dereferenced word are unreachable.  A numeric remainder is converted
with `atoi`, dereferenced once more under the `*` sigil.

(The stale bytes the static `symname` buffer may keep beyond the copied
characters are not modelled; the copied prefix is exact.) -/
def parse_int_arg (env : kenv) (text : List Nat) (len : Nat) : Except kerr Nat :=
  let isptr := cidx text 0 = 42
  let strip := cidx text 0 = 38 ∨ cidx text 0 = 42
  let text1 := if strip then text.drop 1 else text
  let len1 := if strip then len - 1 else len
  if cidx text1 0 < 48 ∨ 57 < cidx text1 0 then
    let symname := text1.take (min (len1 + 1) env.maxSym)
    match env.symtab symname with
    | SymResult.enoent => Except.error kerr.symbol_not_found
    | SymResult.eoverflow => Except.error kerr.duplicate_symbol
    | _ => Except.error kerr.no_symbol_information
  else
    let r := env.atoi text1
    Except.ok (if isptr then env.mem r else r)

/-! ### Command-line parsing: `parse_cmdline` with its locking trace -/
/-- Identity of a spinlock: the registry-wide `cmd_lock` or a per-descriptor
lock, named by the descriptor's address. -/
inductive LockId where
  | registry
  | descr (addr : Nat)
deriving DecidableEq, Repr

/-- One `spinlock_lock` / `spinlock_unlock` call. -/
inductive lockev where
  | lock (l : LockId)
  | unlock (l : LockId)
deriving DecidableEq, Repr

/-- Remove one occurrence of `l` from the list of held locks. -/
def remove_one : List LockId → LockId → List LockId
  | [], _ => []
  | x :: xs, l => if x = l then xs else x :: remove_one xs l

/-- Locks still held after replaying a trace on top of the held set `h`. -/
def held_after : List lockev → List LockId → List LockId
  | [], h => h
  | lockev.lock l :: tr, h => held_after tr (l :: h)
  | lockev.unlock l :: tr, h => held_after tr (remove_one h l)

/-- Locks still held at the end of a trace started with no lock held. -/
def held (tr : List lockev) : List LockId := held_after tr []

/-- The name match of the lookup loop in `parse_cmdline`:
`strncmp(hlp->name, &cmdline[start], max(strlen(hlp->name), end - start + 1))`,
a comparison truncated to the longer of the registered name and the typed
token. -/
def cmd_match (hlp : cmd_info) (cmdline : List Nat) (s e : Nat) : Bool :=
  strncmp hlp.name (cmdline.drop s) (max hlp.name.length (e - s + 1)) = 0

/-- The lookup loop of `parse_cmdline`: walk the registry under `cmd_lock`,
taking each candidate's lock for the comparison; a non-matching candidate's
lock is dropped, the matching candidate's lock is kept (the loop breaks while
holding it). -/
def scan_cmds (cmdline : List Nat) (s e : Nat) :
    List cmd_info → Option cmd_info × List lockev
  | [] => (none, [])
  | hlp :: rest =>
      if cmd_match hlp cmdline s e then (some hlp, [lockev.lock (LockId.descr hlp.addr)])
      else
        let r := scan_cmds cmdline s e rest
        (r.1, lockev.lock (LockId.descr hlp.addr) ::
          lockev.unlock (LockId.descr hlp.addr) :: r.2)

/-- Conversion of one token (range `[s, e]` of the line) against one declared
argument, as the `switch (cmd->argv[i].type)` of `parse_cmdline`.  Returns the
updated argument slot and the error flag of this iteration.

For a string the token is copied into the caller buffer truncated to the
capacity minus one and NUL-terminated.  For a quoted variadic token the bytes
after the opening quote are copied the same way (the closing quote is inside
the copied range whenever the capacity allows, exactly as the source's
`min(end - start, len)` copy does); `intval` receives the buffer address,
which the model cannot represent and stores as 0. -/
def convert_one (env : kenv) (cmdline : List Nat) (len s e : Nat)
    (a : cmd_arg) : cmd_arg × Option kerr :=
  match a.type with
  | arg_type.string =>
      ({ a with buffer := (cmdline.drop s).take (min (e - s + 1) (a.len - 1)) }, none)
  | arg_type.int =>
      match parse_int_arg env (cmdline.drop s) (e - s + 1) with
      | Except.ok v => ({ a with intval := v }, none)
      | Except.error err => (a, some err)
  | arg_type.var =>
      if s ≠ e ∧ cidx cmdline s = 34 ∧ cidx cmdline e = 34 then
        ({ a with buffer := (cmdline.drop (s + 1)).take (min (e - s) (a.len - 1)),
                  intval := 0, vartype := arg_type.string }, none)
      else
        match parse_int_arg env (cmdline.drop s) (e - s + 1) with
        | Except.ok v => ({ a with intval := v, vartype := arg_type.int }, none)
        | Except.error _ => (a, some kerr.unrecognized_var_argument)
  | arg_type.invalid => (a, some kerr.invalid_argument_type)

/-- Result of the argument-conversion loop: either some token extraction
failed (`too_few`), or all declared arguments were processed, yielding the
converted slots, the error flag as left by the *last* iteration (the source
resets `error = 0` at the top of each iteration), and the end index of the
last token consumed. -/
inductive ConvRes where
  | too_few
  | done (argv : List cmd_arg) (lastErr : Option kerr) (endPos : Nat)
deriving DecidableEq, Repr

/-- The `for (i = 0; i < cmd->argc; i++)` conversion loop of `parse_cmdline`:
for each declared argument take the next token (`start = end + 1`), failing
with too-few-arguments when none remains, and convert it; a conversion error
does not stop the loop. -/
def convert_args (env : kenv) (cmdline : List Nat) (len : Nat) :
    List cmd_arg → Nat → ConvRes
  | [], e => ConvRes.done [] none e
  | a :: rest, e =>
      match parse_argument cmdline len (e + 1) with
      | none => ConvRes.too_few
      | some (s, e1) =>
          let r := convert_one env cmdline len s e1 a
          match convert_args env cmdline len rest e1 with
          | ConvRes.too_few => ConvRes.too_few
          | ConvRes.done argvs errLast e2 =>
              ConvRes.done (r.1 :: argvs)
                (match rest with | [] => r.2 | _ :: _ => errLast) e2

/-- The `parse_cmdline` parser over the line `cmdline` of length `len`: the parse result
(the matched descriptor with its argument slots filled, or the error printed)
paired with the full trace of spinlock operations the call performs. -/
def parse_cmdline (env : kenv) (registry : List cmd_info)
    (cmdline : List Nat) (len : Nat) : Except kerr cmd_info × List lockev :=
  match parse_argument cmdline len 0 with
  | none => (Except.error kerr.no_token, [])
  | some (s, e) =>
      let scan := scan_cmds cmdline s e registry
      let tr := lockev.lock LockId.registry :: scan.2 ++ [lockev.unlock LockId.registry]
      match scan.1 with
      | none => (Except.error kerr.unknown_command, tr)
      | some cmd =>
          let unl := [lockev.unlock (LockId.descr cmd.addr)]
          match convert_args env cmdline len (cmd.argv.take cmd.argc) e with
          | ConvRes.too_few => (Except.error kerr.too_few_arguments, tr ++ unl)
          | ConvRes.done argvs lastErr e2 =>
              match lastErr with
              | some err => (Except.error err, tr ++ unl)
              | none =>
                  match parse_argument cmdline len (e2 + 1) with
                  | some _ => (Except.error kerr.too_many_arguments, tr ++ unl)
                  | none =>
                      (Except.ok { cmd with argv := argvs ++ cmd.argv.drop cmd.argc },
                       tr ++ unl)

/-- A fixed collaborator environment for concrete runs: every symbol lookup
reports not-found, memory reads 0, `atoi` returns 0. -/
def env_enoent : kenv := ⟨fun _ => SymResult.enoent, fun _ => 0, fun _ => 0, 64⟩

instance exceptDecEq {ε α : Type} [DecidableEq ε] [DecidableEq α] :
    DecidableEq (Except ε α) := fun x y =>
  match x, y with
  | Except.ok a, Except.ok b => decidable_of_iff (a = b) (by simp)
  | Except.error a, Except.error b => decidable_of_iff (a = b) (by simp)
  | Except.ok _, Except.error _ => isFalse (by simp)
  | Except.error _, Except.ok _ => isFalse (by simp)

/-! ### The line editor: `clever_readline`

The editor state is the static history ring plus the per-session variables of
`clever_readline`.  `current`, a pointer that always aims at a history row, is
represented by the row index `cur`; it tracks `histpos` during a session and is
assigned together with it.  The raw bytes of each row are kept, because the
editor reads stale bytes beyond `curlen` through `strlen`. -/
/-- The `for (i = strlen(str); i > pos; i--) str[i] = str[i-1]` shift of
`insert_char`, performed top-down exactly as the source does. -/
def shiftup_go : Nat → List Nat → Nat → List Nat
  | 0, str, _ => str
  | k + 1, str, pos => shiftup_go k (str.set (pos + k + 1) (cidx str (pos + k))) pos

/-- The `insert_char` helper: shift the bytes from `pos` to `strlen` one place right and
drop `ch` at `pos`.  Writes past the end of the row are lost in the model (the
source would overflow into the neighbouring row). -/
def insert_char (str : List Nat) (ch : Nat) (pos : Nat) : List Nat :=
  (shiftup_go (cstrlen str - pos) str pos).set pos ch

/-- The left-shift loops of backspace (`for (i = position; i < curlen; i++)
current[i-1] = current[i]`) and delete, performed bottom-up as the source
does. -/
def shl_go : Nat → List Nat → Nat → List Nat
  | 0, s, _ => s
  | k + 1, s, i => shl_go k (s.set (i - 1) (cidx s i)) (i + 1)

def shift_left (s : List Nat) (start n : Nat) : List Nat := shl_go (n - start) s start

/-- The `cmdtab_search_one` scan, iterated: the suffixes (beyond the searched prefix) of
every registered name that begins with `name`. -/
def cmdtab_matches (reg : List cmd_info) (name : List Nat) : List (List Nat) :=
  (reg.filter (fun c => decide (name.length ≤ c.name.length) &&
    decide (strncmp c.name name name.length = 0))).map
    (fun c => c.name.drop name.length)

/-- The character-by-character common-extension scan of `cmdtab_compl`:
`for (i = 0; output[i] && foundtxt[i] && output[i] == foundtxt[i]; i++)`. -/
def common_ext : List Nat → List Nat → List Nat
  | x :: xs, y :: ys => if x = y ∧ x ≠ 0 then x :: common_ext xs ys else []
  | _, _ => []

/-- The `cmdtab_compl` completion: number of registry names extending `name`, and the longest
common extension (truncated by the `strncpy(name, output, 128)` copy back).
With no match the scanned word is left as it was. -/
def cmdtab_compl (reg : List cmd_info) (name : List Nat) : Nat × List Nat :=
  match cmdtab_matches reg name with
  | [] => (0, name)
  | m :: ms => (ms.length + 1, (ms.foldl common_ext m).take 128)

/-- Configuration of the editor: `MAX_CMDLINE`, `KCONSOLE_HISTORY` (compile
time constants of the source, kept abstract) and the external `symtab_compl`
collaborator, returning the match count and the rewritten word. -/
structure rlcfg where
  M : Nat
  H : Nat
  symtab_compl : List Nat → Nat × List Nat

/-- Editor state: the history ring rows, the static `histposition`, the row
index the `current` pointer aims at, and the session variables `curlen` and
`position`. -/
structure rlst where
  hist : List (List Nat)
  histpos : Nat
  cur : Nat
  curlen : Nat
  position : Nat
deriving DecidableEq, Repr

/-- Result of consuming input: the session finished on a newline (`done`,
carrying the returned row index and the line length), one loop iteration was
executed (`next`), or the editor is blocked waiting for further bytes
(`empty`). -/
inductive rlres where
  | done (st : rlst) (slot : Nat) (len : Nat)
  | next (st : rlst) (rest : List Nat)
  | empty (st : rlst)
deriving DecidableEq, Repr

def rl_res_st : rlres → rlst
  | rlres.done st _ _ => st
  | rlres.next st _ => st
  | rlres.empty st => st

/-- The row the `current` pointer of the session aims at. -/
def slotAt (st : rlst) (i : Nat) : List Nat := st.hist.getD i []

/-- The `for (; position < curlen && current[position] != ' '; position++)`
move to the end of the current word. -/
def wend_go : Nat → List Nat → Nat → Nat → Nat
  | 0, _, _, i => i
  | f + 1, s, n, i =>
      if i < n ∧ cidx s i ≠ 32 then wend_go f s n (i + 1) else i

def word_end (s : List Nat) (i n : Nat) : Nat := wend_go n s n i

/-- The `for (i = position - 1; i >= 0 && current[i] != ' '; i--); i++` scan
back to the start of the current word. -/
def wstart_go : Nat → List Nat → Nat → Nat
  | 0, _, j => j
  | f + 1, s, j =>
      if j = 0 then 0 else if cidx s (j - 1) = 32 then j else wstart_go f s (j - 1)

def word_start (s : List Nat) (p : Nat) : Nat := wstart_go p s p

/-- The hint-insertion loop of the tab handler:
`for (i = 0; tmp[i] && curlen < MAX_CMDLINE; i++, curlen++)
insert_char(current, tmp[i], i + position)`. -/
def tab_insert (M : Nat) : List Nat → List Nat → Nat → Nat → Nat → List Nat × Nat
  | s, [], _, _, curlen => (s, curlen)
  | s, t :: ts, pos, k, curlen =>
      if curlen < M then
        tab_insert M (insert_char s t (pos + k)) ts pos (k + 1) (curlen + 1)
      else (s, curlen)

/-- The tab branch of `clever_readline`: move to the end of the word, find its
start, copy it out (the copy stops at the first NUL byte of the row; the stale
bytes the static `tmp` buffer may keep beyond that are not modelled), complete
it against the command registry (first word) or the symbol table, insert the
returned hint while the buffer allows, advance the caret by the *full* hint
length, and append a space after a unique match that ends the line.  The two
echo-only branches of the source differ only in output, not in state. -/
def tab_query (cfg : rlcfg) (reg : List cmd_info) (s : List Nat)
    (p1 : Nat) : Nat × List Nat :=
  let w0 := word_start s p1
  let tmp := cstr_val ((s.drop w0).take (p1 - w0 + 1))
  if w0 = 0 then cmdtab_compl reg tmp else cfg.symtab_compl tmp

def tab_step (cfg : rlcfg) (reg : List cmd_info) (st : rlst)
    (rest : List Nat) : rlres :=
  let s := slotAt st st.cur
  let p1 := word_end s st.position st.curlen
  let fr := tab_query cfg reg s p1
  if fr.1 = 0 then rlres.next { st with position := p1 } rest
  else
    let ins := tab_insert cfg.M s fr.2 p1 0 st.curlen
    let pos1 := p1 + fr.2.length
    if fr.1 = 1 ∧ pos1 = ins.2 ∧ ins.2 < cfg.M then
      rlres.next { st with hist := st.hist.set st.cur ((ins.1).set pos1 32),
                           curlen := ins.2 + 1, position := pos1 + 1 } rest
    else
      rlres.next { st with hist := st.hist.set st.cur ins.1,
                           curlen := ins.2, position := pos1 } rest

/-- Every non-newline input of the editor loop: backspace, tab, the escape
sequences (delete, home, end, left, right, history up and down) and the
printable default, exactly as the `while (1)` body of `clever_readline`. -/
def edit_step (cfg : rlcfg) (reg : List cmd_info) (st : rlst) (c : Nat)
    (rest : List Nat) : rlres :=
  if c = 8 then
    if st.position = 0 then rlres.next st rest
    else
      rlres.next { st with
        hist := st.hist.set st.cur (shift_left (slotAt st st.cur) st.position st.curlen),
        curlen := st.curlen - 1, position := st.position - 1 } rest
  else if c = 9 then tab_step cfg reg st rest
  else if c = 27 then
    match rest with
    | mod1 :: c2 :: rest2 =>
        if mod1 ≠ 91 ∧ mod1 ≠ 79 then rlres.next st rest2
        else if c2 = 51 then
          match rest2 with
          | c3 :: rest3 =>
              if c3 = 126 then
                if st.position = st.curlen then rlres.next st rest3
                else
                  rlres.next { st with
                    hist := st.hist.set st.cur
                      (shift_left (slotAt st st.cur) (st.position + 1) st.curlen),
                    curlen := st.curlen - 1 } rest3
              else rlres.next st rest3
          | [] => rlres.empty st
        else if c2 = 72 then rlres.next { st with position := 0 } rest2
        else if c2 = 70 then rlres.next { st with position := st.curlen } rest2
        else if c2 = 68 then
          rlres.next
            (if 0 < st.position then { st with position := st.position - 1 } else st) rest2
        else if c2 = 67 then
          rlres.next
            (if st.position < st.curlen then { st with position := st.position + 1 } else st)
            rest2
        else if c2 = 65 ∨ c2 = 66 then
          let hp := if c2 = 65 then
              (if st.histpos = 0 then cfg.H - 1 else (st.histpos - 1) % cfg.H)
            else (st.histpos + 1) % cfg.H
          let L := cstrlen (st.hist.getD hp [])
          rlres.next ⟨st.hist, hp, hp, L, L⟩ rest2
        else rlres.next st rest2
    | _ => rlres.empty st
  else
    if cfg.M ≤ st.curlen then rlres.next st rest
    else
      rlres.next { st with
        hist := st.hist.set st.cur (insert_char (slotAt st st.cur) c st.position),
        curlen := st.curlen + 1, position := st.position + 1 } rest

/-- One iteration of the `while (1)` loop of `clever_readline`: a newline ends
the session — the history write cursor advances (circularly) only for a
non-empty line, the line is NUL-terminated at `curlen`, and the row `current`
aims at is returned; any other byte is handled by `edit_step`. -/
def clever_readline_step (cfg : rlcfg) (reg : List cmd_info) (st : rlst) :
    List Nat → rlres
  | [] => rlres.empty st
  | c :: rest =>
      if c = 10 then
        rlres.done
          ⟨st.hist.set st.cur ((slotAt st st.cur).set st.curlen 0),
           (if st.curlen = 0 then st.histpos else (st.histpos + 1) % cfg.H),
           st.cur, st.curlen, st.position⟩
          st.cur st.curlen
      else edit_step cfg reg st c rest

/-- Run the editor loop over the available input bytes; each iteration consumes
at least one byte, so fuel `inp.length + 1` is always sufficient. -/
def rl_run (cfg : rlcfg) (reg : List cmd_info) : Nat → rlst → List Nat → rlres
  | 0, st, _ => rlres.empty st
  | fuel + 1, st, inp =>
      match clever_readline_step cfg reg st inp with
      | rlres.next st1 rest => rl_run cfg reg fuel st1 rest
      | r => r

/-- Session entry of `clever_readline`: `current = history[histposition]`,
`curlen = 0`, `position = 0`. -/
def rl_start (st : rlst) : rlst := { st with cur := st.histpos, curlen := 0, position := 0 }

/-- One full `clever_readline` session over the input byte list. -/
def clever_readline (cfg : rlcfg) (reg : List cmd_info) (st : rlst)
    (inp : List Nat) : rlres :=
  rl_run cfg reg (inp.length + 1) (rl_start st) inp

/-- The state left by `kconsole_init`: every history row zeroed. -/
def rl_init (cfg : rlcfg) : rlst :=
  ⟨List.replicate cfg.H (List.replicate cfg.M 0), 0, 0, 0, 0⟩

/-- Submit one line: run a session on the line's bytes followed by newline. -/
def submit (cfg : rlcfg) (reg : List cmd_info) (st : rlst) (w : List Nat) : rlst :=
  rl_res_st (clever_readline cfg reg st (w ++ [10]))

/-- Submit a sequence of lines, one session each. -/
def submitN (cfg : rlcfg) (reg : List cmd_info) (ws : List (List Nat))
    (st : rlst) : rlst :=
  ws.foldl (submit cfg reg) st

/-- The byte sequence of `k` presses of the Up key (ESC `[A`). -/
def upBytes : Nat → List Nat
  | 0 => []
  | k + 1 => 27 :: 91 :: 65 :: upBytes k

/-- The state of a session that consumed `k` Up presses and is waiting for
more input. -/
def upRun (cfg : rlcfg) (reg : List cmd_info) (st : rlst) (k : Nat) : rlst :=
  rl_res_st (clever_readline cfg reg st (upBytes k))

/-- A byte the editor treats as plain text: not NUL and none of newline,
backspace, tab, escape. -/
def plain_byte (c : Nat) : Prop := c ≠ 0 ∧ c ≠ 8 ∧ c ≠ 9 ∧ c ≠ 10 ∧ c ≠ 27

/-- A line that can be typed verbatim: nonempty, within the buffer bound, all
plain bytes. -/
def plain_line (M : Nat) (w : List Nat) : Prop :=
  w ≠ [] ∧ w.length ≤ M ∧ ∀ c ∈ w, plain_byte c

/-- A history row holding the line `w` followed by the zero bytes of the
never-written remainder of the row. -/
def typed_slot (M : Nat) (w : List Nat) : List Nat :=
  w ++ List.replicate (M - w.length) 0

/-- The ring after the lines `ws` were submitted in order into a fresh ring. -/
def mkhist (cfg : rlcfg) (ws : List (List Nat)) : List (List Nat) :=
  ws.map (typed_slot cfg.M) ++
    List.replicate (cfg.H - ws.length) (List.replicate cfg.M 0)

/-- One Up press: the cursor steps back circularly and the row it reaches is
loaded (`curlen = position = strlen`). -/
def prevPos (H p : Nat) : Nat := if p = 0 then H - 1 else (p - 1) % H

def prevIter (H : Nat) : Nat → Nat → Nat
  | 0, p => p
  | k + 1, p => prevIter H k (prevPos H p)

def upStep (cfg : rlcfg) (st : rlst) : rlst :=
  let hp := prevPos cfg.H st.histpos
  let L := cstrlen (st.hist.getD hp [])
  ⟨st.hist, hp, hp, L, L⟩

def upIterSt (cfg : rlcfg) : Nat → rlst → rlst
  | 0, st => st
  | k + 1, st => upIterSt cfg k (upStep cfg st)

/-- The editor invariant of the specification: caret within the line, line
within the buffer, and every ring row of the configured row size. -/
def rl_inv (cfg : rlcfg) (st : rlst) : Prop :=
  st.position ≤ st.curlen ∧ st.curlen ≤ cfg.M ∧ ∀ s ∈ st.hist, s.length = cfg.M

instance rl_inv_decidable (cfg : rlcfg) (st : rlst) : Decidable (rl_inv cfg st) := by
  unfold rl_inv
  infer_instance

instance plain_byte_decidable (c : Nat) : Decidable (plain_byte c) := by
  unfold plain_byte
  infer_instance

instance plain_line_decidable (M : Nat) (w : List Nat) :
    Decidable (plain_line M w) := by
  unfold plain_line
  infer_instance

/-- The structural ring invariant of a session: `current` tracks the history
cursor, the cursor is inside the ring, and the ring shape is fixed. -/
def rl_sinv (cfg : rlcfg) (st : rlst) : Prop :=
  st.cur = st.histpos ∧ st.histpos < cfg.H ∧ st.hist.length = cfg.H ∧
    ∀ s ∈ st.hist, s.length = cfg.M

instance rl_sinv_decidable (cfg : rlcfg) (st : rlst) : Decidable (rl_sinv cfg st) := by
  unfold rl_sinv
  infer_instance

/-- A concrete editor configuration for witnesses: 3-byte lines, 2 history
rows, trivial symbol completion. -/
def cfg8 : rlcfg := ⟨3, 2, fun t => (0, t)⟩

/-! ### Helper lemmas about `strncmp` -/
theorem strncmp_nil_cons_ne {y : Nat} {b : List Nat} {n : Nat} (hy : y ≠ 0) :
    strncmp [] (y :: b) (n + 1) ≠ 0 := by
  simp [strncmp, hy]

/-- If `a` is strictly shorter than both the byte budget `n` and `b`, and `b`
has no NUL bytes, the comparison finds the NUL that ends `a` against a nonzero
byte of `b` and reports a difference. -/
theorem strncmp_ne_of_lt_length {a b : List Nat} {n : Nat}
    (hn : a.length < n) (hb : a.length < b.length)
    (hbz : ∀ x ∈ b, x ≠ 0) : strncmp a b n ≠ 0 := by
  induction a generalizing b n with
  | nil =>
    match b, n with
    | y :: b, n + 1 =>
      exact strncmp_nil_cons_ne (hbz y (by simp))
  | cons x a ih =>
    match b, n with
    | y :: b, n + 1 =>
      by_cases hxy : x = y
      · have hy : y ≠ 0 := hbz y (by simp)
        have := ih (b := b) (n := n)
          (by simpa using hn) (by simpa using hb) (fun z hz => hbz z (by simp [hz]))
        simpa [strncmp, hxy] using And.intro hy this
      · by_cases hlt : x < y <;> simp [strncmp, hxy, hlt]

/-- With a byte budget at least the length of both sides, `strncmp` compares
the whole strings: for NUL-free values it reports equality exactly on equal
lists. -/
theorem strncmp_eq_zero_iff {a b : List Nat} {n : Nat}
    (hna : a.length ≤ n) (hnb : b.length ≤ n)
    (haz : ∀ x ∈ a, x ≠ 0) (hbz : ∀ x ∈ b, x ≠ 0) :
    strncmp a b n = 0 ↔ a = b := by
  induction a generalizing b n with
  | nil =>
    match b, n with
    | [], 0 => simp [strncmp]
    | [], n + 1 => simp [strncmp]
    | y :: b, n + 1 =>
      have hy : y ≠ 0 := hbz y (by simp)
      simp [strncmp, hy]
  | cons x a ih =>
    match b, n with
    | [], n + 1 =>
      have hx : x ≠ 0 := haz x (by simp)
      simp [strncmp, hx]
    | y :: b, n + 1 =>
      have hx : x ≠ 0 := haz x (by simp)
      have hy : y ≠ 0 := hbz y (by simp)
      by_cases hxy : x = y
      · have := ih (b := b) (n := n) (by simpa using hna) (by simpa using hnb)
          (fun z hz => haz z (by simp [hz])) (fun z hz => hbz z (by simp [hz]))
        simp [strncmp, hxy, hx, hy, this]
      · by_cases hlt : x < y <;> simp [strncmp, hxy, hlt, hx]

/-! ### Registry lemmas -/
theorem cmd_register_scan_false_of_addr_mem {registry : List cmd_info}
    {cmd : cmd_info} (h : ∃ hlp ∈ registry, hlp.addr = cmd.addr) :
    cmd_register_scan registry cmd = false := by
  induction registry with
  | nil => simp at h
  | cons hlp rest ih =>
    rcases h with ⟨x, hx, hax⟩
    rcases List.mem_cons.mp hx with rfl | hmem
    · simp [cmd_register_scan, hax]
    · by_cases h1 : hlp.addr = cmd.addr
      · simp [cmd_register_scan, h1]
      · by_cases h2 : strncmp hlp.name cmd.name (max cmd.name.length hlp.name.length) = 0
        · simp [cmd_register_scan, h1, h2]
        · simpa [cmd_register_scan, h1, h2] using ih ⟨x, hmem, hax⟩

theorem cmd_register_scan_true {registry : List cmd_info} {cmd : cmd_info}
    (haddr : ∀ hlp ∈ registry, hlp.addr ≠ cmd.addr)
    (hname : ∀ hlp ∈ registry, hlp.name ≠ cmd.name)
    (hwf : ∀ hlp ∈ registry, ∀ x ∈ hlp.name, x ≠ 0)
    (hwfc : ∀ x ∈ cmd.name, x ≠ 0) :
    cmd_register_scan registry cmd = true := by
  induction registry with
  | nil => rfl
  | cons hlp rest ih =>
    have h1 : hlp.addr ≠ cmd.addr := haddr hlp (by simp)
    have h2 : strncmp hlp.name cmd.name (max cmd.name.length hlp.name.length) ≠ 0 := by
      intro h0
      exact hname hlp (by simp)
        ((strncmp_eq_zero_iff (Nat.le_max_right _ _) (Nat.le_max_left _ _)
          (hwf hlp (by simp)) hwfc).mp h0)
    have hrest := ih (fun h hm => haddr h (by simp [hm]))
      (fun h hm => hname h (by simp [hm])) (fun h hm => hwf h (by simp [hm]))
    simp [cmd_register_scan, h1, h2, hrest]

/-! ### Claims about registration -/
/-- Claim C1, counterexample: the names dump and dumpall are prefix-equal up to
the shorter length, yet registering the second descriptor succeeds (returns
true) and appends it, because the comparison truncated to the longer length
stops at the shorter name's terminator.  The claim states it should return
false and leave the registry unchanged. -/
theorem C1_cex :
    cmd_register [⟨0, [100, 117, 109, 112], [], 0, []⟩]
        ⟨1, [100, 117, 109, 112, 97, 108, 108], [], 0, []⟩ =
      (true, [⟨0, [100, 117, 109, 112], [], 0, []⟩,
              ⟨1, [100, 117, 109, 112, 97, 108, 108], [], 0, []⟩]) := by
  decide

/-- Claim C1, amended: a registering descriptor that is a distinct instance and
whose name is not byte-for-byte identical to any registered name (in particular
one of a strict-prefix pair such as dump and dumpall) is accepted: register
returns true and appends it.  The documented comparison truncated to the longer
of the two names stops at the shorter name's NUL terminator, so only exactly
equal names collide. -/
theorem C1_thm (registry : List cmd_info) (cmd : cmd_info)
    (haddr : ∀ hlp ∈ registry, hlp.addr ≠ cmd.addr)
    (hname : ∀ hlp ∈ registry, hlp.name ≠ cmd.name)
    (hwf : ∀ hlp ∈ registry, ∀ x ∈ hlp.name, x ≠ 0)
    (hwfc : ∀ x ∈ cmd.name, x ≠ 0) :
    cmd_register registry cmd = (true, registry ++ [cmd]) := by
  unfold cmd_register
  rw [cmd_register_scan_true haddr hname hwf hwfc]
  simp

/-- Claim C1, witness for the amended theorem at a concrete prefix pair. -/
theorem C1_wit :
    cmd_register [⟨0, [100, 117, 109, 112], [], 0, []⟩]
        ⟨1, [100, 117, 109, 112, 97, 108, 108], [], 0, []⟩ =
      (true, [⟨0, [100, 117, 109, 112], [], 0, []⟩,
              ⟨1, [100, 117, 109, 112, 97, 108, 108], [], 0, []⟩]) :=
  C1_thm _ _ (by decide) (by decide) (by decide) (by decide)

/-- Claim C5: registering a descriptor instance that is already linked into the
registry (same address identity) returns false and leaves the registry, its
size and its element sequence, unchanged. -/
theorem C5_thm (registry : List cmd_info) (cmd : cmd_info)
    (h : ∃ hlp ∈ registry, hlp.addr = cmd.addr) :
    cmd_register registry cmd = (false, registry) := by
  unfold cmd_register
  rw [cmd_register_scan_false_of_addr_mem h]
  simp

/-- Claim C5, witness: registering the same descriptor twice fails the second
time with the registry unchanged. -/
theorem C5_wit :
    cmd_register [⟨0, [100, 117, 109, 112], [], 0, []⟩]
        ⟨0, [100, 117, 109, 112], [], 0, []⟩ =
      (false, [⟨0, [100, 117, 109, 112], [], 0, []⟩]) :=
  C5_thm _ _ ⟨⟨0, [100, 117, 109, 112], [], 0, []⟩, by simp, rfl⟩

/-- Claim C9: `cmd_register` never modifies any descriptor: the resulting
registry is exactly the old element sequence, with the untouched new descriptor
appended when and only when the call reports success. -/
theorem C9_thm (registry : List cmd_info) (cmd : cmd_info) :
    (cmd_register registry cmd).2 =
      registry ++ (if (cmd_register registry cmd).1 then [cmd] else []) := by
  unfold cmd_register
  by_cases h : cmd_register_scan registry cmd <;> simp [h]

/-- Claim C2: in the symbol branch of `parse_int_arg` every arm of the `switch`
on the lookup result returns failure; in particular a token `&name` whose
symbol resolves successfully to an address A is reported as a failure with the
no-symbol-information message instead of yielding A.  This proves the claim
false on the code as written; the dead assignments after the `switch` implement
exactly the claimed behaviour, so the claim matches the evident intent. -/
theorem C2_thm (env : kenv) (text : List Nat) (len : Nat) (A : Nat)
    (hamp : cidx text 0 = 38)
    (hdig : cidx (text.drop 1) 0 < 48 ∨ 57 < cidx (text.drop 1) 0)
    (hsym : env.symtab ((text.drop 1).take (min (len - 1 + 1) env.maxSym)) =
      SymResult.eok A) :
    parse_int_arg env text len = Except.error kerr.no_symbol_information := by
  rw [List.drop_one] at hdig hsym
  simp [parse_int_arg, hamp, hdig, hsym]

/-- Claim C2, witness: with a symbol table resolving the name to address 100,
parsing the token `&a` fails with the no-symbol-information message. -/
theorem C2_wit :
    parse_int_arg ⟨fun _ => SymResult.eok 100, fun _ => 0, fun _ => 0, 64⟩
        [38, 97] 2 = Except.error kerr.no_symbol_information :=
  C2_thm _ _ _ 100 (by decide) (by decide) (by decide)

/-! ### Lock-trace lemmas -/
theorem held_after_append (t1 t2 : List lockev) (h : List LockId) :
    held_after (t1 ++ t2) h = held_after t2 (held_after t1 h) := by
  induction t1 generalizing h with
  | nil => rfl
  | cons ev t1 ih => cases ev <;> simp [held_after, ih]

theorem scan_cmds_held (cmdline : List Nat) (s e : Nat) (reg : List cmd_info)
    (h : List LockId) :
    held_after (scan_cmds cmdline s e reg).2 h =
      (match (scan_cmds cmdline s e reg).1 with
       | some c => LockId.descr c.addr :: h
       | none => h) := by
  induction reg with
  | nil => rfl
  | cons hlp rest ih =>
    by_cases hm : cmd_match hlp cmdline s e
    · simp [scan_cmds, hm, held_after]
    · simp [scan_cmds, hm, held_after, remove_one, ih]

theorem scan_cmds_some_match {reg : List cmd_info} {cmdline : List Nat}
    {s e : Nat} {c : cmd_info}
    (h : (scan_cmds cmdline s e reg).1 = some c) :
    cmd_match c cmdline s e = true := by
  induction reg with
  | nil => simp [scan_cmds] at h
  | cons hlp rest ih =>
    by_cases hm : cmd_match hlp cmdline s e
    · simp only [scan_cmds, hm, if_pos] at h
      cases h
      simpa using hm
    · simp only [scan_cmds, hm] at h
      exact ih (by simpa using h)

/-- Claim C3, counterexample: a concrete successful parse (zero-argument
command, line consisting of its name) returns with the lock trace balanced: no
lock, in particular not the matched descriptor's lock, is still held when
`parse_cmdline` returns, contradicting the claim that the per-descriptor lock
is held by the caller across the handler invocation. -/
theorem C3_cex :
    (parse_cmdline env_enoent [⟨5, [120], [], 0, []⟩] [120] 1).1 =
        Except.ok ⟨5, [120], [], 0, []⟩ ∧
      held (parse_cmdline env_enoent [⟨5, [120], [], 0, []⟩] [120] 1).2 = [] := by
  decide

/-- Claim C3, amended: the matched descriptor's lock is held across the whole
argument-conversion phase, but it is released inside `parse_cmdline` before the
function returns, on success as well as on every failure path; the handler is
then invoked without the lock.  Consequently every lock acquired during a call
to `parse_cmdline` is also released by it: the trace it produces is balanced. -/
theorem C3_thm (env : kenv) (registry : List cmd_info) (cmdline : List Nat)
    (len : Nat) :
    held (parse_cmdline env registry cmdline len).2 = [] := by
  unfold parse_cmdline
  cases hpa : parse_argument cmdline len 0 with
  | none => simp [held, held_after]
  | some se =>
    obtain ⟨s, e⟩ := se
    simp only []
    cases hscan : (scan_cmds cmdline s e registry).1 with
    | none =>
      simp [held, held_after, held_after_append, scan_cmds_held, hscan, remove_one]
    | some cmd =>
      have hh : ∀ t : List lockev,
          t = (scan_cmds cmdline s e registry).2 ++
            ([lockev.unlock LockId.registry] ++
             [lockev.unlock (LockId.descr cmd.addr)]) →
          held_after t [LockId.registry] = [] := by
        intro t ht
        subst ht
        simp [held_after_append, scan_cmds_held, hscan, held_after, remove_one]
      cases hconv : convert_args env cmdline len (cmd.argv.take cmd.argc) e with
      | too_few =>
        simp only [hscan, hconv, held, held_after]
        exact hh _ (by simp)
      | done argvs lastErr e2 =>
        cases lastErr with
        | some err =>
          simp only [hscan, hconv, held, held_after]
          exact hh _ (by simp)
        | none =>
          cases hpa2 : parse_argument cmdline len (e2 + 1) with
          | some se2 =>
            simp only [hscan, hconv, hpa2, held, held_after]
            exact hh _ (by simp)
          | none =>
            simp only [hscan, hconv, hpa2, held, held_after]
            exact hh _ (by simp)

/-- Claim C4: the exact-match lookup compares the typed token against each
registered name with `strncmp` truncated to the maximum of the two lengths, so
whenever the scan returns a command, the typed token is no longer than that
command's name: a typed name strictly longer than a registered name never
matches it. -/
theorem C4_thm (registry : List cmd_info) (cmdline : List Nat) (s e : Nat)
    (c : cmd_info) (hz : ∀ x ∈ cmdline, x ≠ 0) (hse : s ≤ e)
    (he : e < cmdline.length)
    (hfind : (scan_cmds cmdline s e registry).1 = some c) :
    e - s + 1 ≤ c.name.length := by
  by_contra hlt
  push_neg at hlt
  have hm := scan_cmds_some_match hfind
  simp only [cmd_match, decide_eq_true_eq] at hm
  have hmax : c.name.length < max c.name.length (e - s + 1) :=
    lt_max_of_lt_right hlt
  have hblen : c.name.length < (cmdline.drop s).length := by
    rw [List.length_drop]
    omega
  exact strncmp_ne_of_lt_length hmax hblen
    (fun x hx => hz x (List.mem_of_mem_drop hx)) hm

/-- Claim C4, witness: a registered name of length two is looked up by the
two-byte token `du` and the bound holds. -/
theorem C4_wit : 1 - 0 + 1 ≤ (cmd_info.mk 7 [100, 117] [] 0 []).name.length :=
  C4_thm [⟨7, [100, 117], [], 0, []⟩] [100, 117] 0 1 ⟨7, [100, 117], [], 0, []⟩
    (by decide) (by decide) (by decide) (by decide)

/-- The conversion loop runs out of tokens exactly when fewer successive tokens
than declared arguments can be extracted after the command name. -/
theorem convert_args_too_few_iff (env : kenv) (cmdline : List Nat) (len : Nat)
    (args : List cmd_arg) (e : Nat) :
    convert_args env cmdline len args e = ConvRes.too_few ↔
      has_tokens cmdline len (e + 1) args.length = false := by
  induction args generalizing e with
  | nil => simp [convert_args, has_tokens]
  | cons a rest ih =>
    cases hpa : parse_argument cmdline len (e + 1) with
    | none => simp [convert_args, has_tokens, hpa]
    | some se =>
      obtain ⟨s, e1⟩ := se
      cases hc : convert_args env cmdline len rest e1 with
      | too_few =>
        have := (ih e1).mp hc
        simp [convert_args, has_tokens, hpa, hc, this]
      | done argvs errLast e2 =>
        have : ¬ has_tokens cmdline len (e1 + 1) rest.length = false := by
          intro hf
          rw [← ih e1] at hf
          simp [hf] at hc
        simp only [Bool.not_eq_false] at this
        simp [convert_args, has_tokens, hpa, hc, this]

/-- Claim C6, counterexample: a registered command `x` with one declared
integer argument, given the line `x q y`.  Two further tokens are present
(second conjunct), so the declared argument is consumed and the token `y`
remains; the claim requires failure with too-many-arguments, but the last
declared argument's conversion failed (`q` resolves to no symbol), and the
parse fails with that conversion's error instead, before the extra-token check
is reached. -/
theorem C6_cex :
    (parse_cmdline env_enoent
        [⟨2, [120], [], 1, [⟨arg_type.int, 0, [], 0, arg_type.int⟩]⟩]
        [120, 32, 113, 32, 121] 5).1 = Except.error kerr.symbol_not_found ∧
      has_tokens [120, 32, 113, 32, 121] 5 1 2 = true := by
  decide

/-- Claim C6, amended: for a line whose first token matches a registered
command, parsing fails with too-few-arguments whenever fewer further tokens
than declared arguments are present; and it fails with too-many-arguments
whenever a token remains after the declared arguments are consumed, provided
the last declared argument's conversion succeeded (the error flag is reset on
every loop iteration, so only the final iteration's conversion outcome guards
the extra-token check; if it failed, parsing fails with that error instead). -/
theorem C6_thm (env : kenv) (registry : List cmd_info) (cmdline : List Nat)
    (len s e : Nat) (cmd : cmd_info)
    (hfirst : parse_argument cmdline len 0 = some (s, e))
    (hfind : (scan_cmds cmdline s e registry).1 = some cmd)
    (hargc : cmd.argc ≤ cmd.argv.length) :
    (has_tokens cmdline len (e + 1) cmd.argc = false →
      (parse_cmdline env registry cmdline len).1 = Except.error kerr.too_few_arguments)
    ∧ (∀ argvs e2,
        convert_args env cmdline len (cmd.argv.take cmd.argc) e =
          ConvRes.done argvs none e2 →
        parse_argument cmdline len (e2 + 1) ≠ none →
        (parse_cmdline env registry cmdline len).1 =
          Except.error kerr.too_many_arguments) := by
  constructor
  · intro hfew
    have hlen : (cmd.argv.take cmd.argc).length = cmd.argc := by
      simp [List.length_take, Nat.min_eq_left hargc]
    have hconv : convert_args env cmdline len (cmd.argv.take cmd.argc) e =
        ConvRes.too_few := by
      rw [convert_args_too_few_iff, hlen]
      exact hfew
    simp [parse_cmdline, hfirst, hfind, hconv]
  · intro argvs e2 hconv hmore
    cases hpa2 : parse_argument cmdline len (e2 + 1) with
    | none => exact absurd hpa2 hmore
    | some se2 =>
      simp [parse_cmdline, hfirst, hfind, hconv, hpa2]

/-- Claim C6, witness for the amended theorem: command `x` with one string
argument; on `x` alone the parse fails with too-few-arguments, on `x a b` it
fails with too-many-arguments. -/
theorem C6_wit :
    (parse_cmdline env_enoent
        [⟨2, [120], [], 1, [⟨arg_type.string, 4, [], 0, arg_type.string⟩]⟩]
        [120] 1).1 = Except.error kerr.too_few_arguments ∧
      (parse_cmdline env_enoent
        [⟨2, [120], [], 1, [⟨arg_type.string, 4, [], 0, arg_type.string⟩]⟩]
        [120, 32, 97, 32, 98] 5).1 = Except.error kerr.too_many_arguments := by
  refine ⟨?_, ?_⟩
  · exact (C6_thm env_enoent
      [⟨2, [120], [], 1, [⟨arg_type.string, 4, [], 0, arg_type.string⟩]⟩]
      [120] 1 0 0
      ⟨2, [120], [], 1, [⟨arg_type.string, 4, [], 0, arg_type.string⟩]⟩
      (by decide) (by decide) (by decide)).1 (by decide)
  · exact (C6_thm env_enoent
      [⟨2, [120], [], 1, [⟨arg_type.string, 4, [], 0, arg_type.string⟩]⟩]
      [120, 32, 97, 32, 98] 5 0 0
      ⟨2, [120], [], 1, [⟨arg_type.string, 4, [], 0, arg_type.string⟩]⟩
      (by decide) (by decide) (by decide)).2
      [⟨arg_type.string, 4, [97], 0, arg_type.string⟩] 2 (by decide) (by decide)

/-! ### List and buffer helper lemmas -/
theorem cidx_set_self (l : List Nat) (n : Nat) : cidx (l.set n 0) n = 0 := by
  induction l generalizing n with
  | nil => simp [cidx]
  | cons x xs ih =>
    cases n with
    | zero => simp [cidx]
    | succ m => simpa [cidx] using ih m

theorem set_getD_eq {α} (l : List α) (n : Nat) (v : α) (h : l.getD n v = v) :
    l.set n v = l := by
  induction l generalizing n with
  | nil => simp
  | cons x xs ih =>
    cases n with
    | zero => simp [List.getD] at h; simp [h]
    | succ m =>
      simp only [List.getD_cons_succ] at h
      simp [ih m h]

theorem set_oob {α} (l : List α) (i : Nat) (v : α) (h : l.length ≤ i) :
    l.set i v = l := by
  induction l generalizing i with
  | nil => simp
  | cons x xs ih =>
    cases i with
    | zero => simp at h
    | succ m => simpa using ih m (by simpa using h)

theorem getD_mem {α} (l : List α) (i : Nat) (d : α) (h : i < l.length) :
    l.getD i d ∈ l := by
  induction l generalizing i with
  | nil => simp at h
  | cons x xs ih =>
    cases i with
    | zero => simp [List.getD]
    | succ m =>
      simp only [List.getD_cons_succ]
      exact List.mem_cons_of_mem x (ih m (by simpa using h))

theorem mem_of_set {α} {a : α} :
    ∀ {l : List α} {i : Nat} {v : α}, a ∈ l.set i v → a ∈ l ∨ a = v := by
  intro l
  induction l with
  | nil => intro i v h; simp at h
  | cons x xs ih =>
    intro i v h
    cases i with
    | zero =>
      rcases List.mem_cons.mp h with rfl | hm
      · exact Or.inr rfl
      · exact Or.inl (List.mem_cons_of_mem x hm)
    | succ m =>
      rcases List.mem_cons.mp h with rfl | hm
      · exact Or.inl (List.mem_cons_self _ _)
      · rcases ih hm with h1 | h2
        · exact Or.inl (List.mem_cons_of_mem x h1)
        · exact Or.inr h2

theorem slots_len_set (hist : List (List Nat)) (M i : Nat) (v : List Nat)
    (h : ∀ s ∈ hist, s.length = M) (hv : i < hist.length → v.length = M) :
    ∀ s ∈ hist.set i v, s.length = M := by
  intro s hs
  by_cases hi : i < hist.length
  · rcases mem_of_set hs with hmem | rfl
    · exact h s hmem
    · exact hv hi
  · rw [set_oob _ _ _ (by omega)] at hs
    exact h s hs

theorem cstrlen_le_length (s : List Nat) : cstrlen s ≤ s.length := by
  induction s with
  | nil => simp [cstrlen]
  | cons b r ih => by_cases h : b = 0 <;> simp [cstrlen, h] <;> omega

theorem shl_go_length (k : Nat) (s : List Nat) (i : Nat) :
    (shl_go k s i).length = s.length := by
  induction k generalizing s i with
  | zero => rfl
  | succ k ih => simp [shl_go, ih]

theorem shift_left_length (s : List Nat) (start n : Nat) :
    (shift_left s start n).length = s.length := shl_go_length _ _ _

theorem shiftup_go_length (k : Nat) (s : List Nat) (p : Nat) :
    (shiftup_go k s p).length = s.length := by
  induction k generalizing s with
  | zero => rfl
  | succ k ih => simp [shiftup_go, ih]

theorem insert_char_length (s : List Nat) (c p : Nat) :
    (insert_char s c p).length = s.length := by
  simp [insert_char, shiftup_go_length]

theorem tab_insert_length (M : Nat) (ts s : List Nat) (p k n : Nat) :
    ((tab_insert M s ts p k n).1).length = s.length := by
  induction ts generalizing s k n with
  | nil => rfl
  | cons t ts ih =>
    by_cases h : n < M <;>
      simp [tab_insert, h, ih, insert_char_length]

theorem tab_insert_le (M : Nat) (ts s : List Nat) (p k n : Nat) (h : n ≤ M) :
    (tab_insert M s ts p k n).2 ≤ M := by
  induction ts generalizing s k n with
  | nil => exact h
  | cons t ts ih =>
    by_cases hn : n < M
    · simpa [tab_insert, hn] using ih (insert_char s t (p + k)) (k + 1) (n + 1) (by omega)
    · simpa [tab_insert, hn] using h

/-! ### Step evaluation lemmas -/
theorem step_newline (cfg : rlcfg) (reg : List cmd_info) (st : rlst)
    (rest : List Nat) :
    clever_readline_step cfg reg st (10 :: rest) =
      rlres.done ⟨st.hist.set st.cur ((slotAt st st.cur).set st.curlen 0),
        (if st.curlen = 0 then st.histpos else (st.histpos + 1) % cfg.H),
        st.cur, st.curlen, st.position⟩ st.cur st.curlen := by
  simp [clever_readline_step]

theorem step_printable (cfg : rlcfg) (reg : List cmd_info) (st : rlst)
    (c : Nat) (rest : List Nat)
    (hc0 : c ≠ 10) (hc1 : c ≠ 8) (hc2 : c ≠ 9) (hc3 : c ≠ 27)
    (hlt : st.curlen < cfg.M) :
    clever_readline_step cfg reg st (c :: rest) =
      rlres.next { st with
        hist := st.hist.set st.cur (insert_char (slotAt st st.cur) c st.position),
        curlen := st.curlen + 1, position := st.position + 1 } rest := by
  simp [clever_readline_step, edit_step, hc0, hc1, hc2, hc3, Nat.not_le.mpr hlt]

theorem step_up (cfg : rlcfg) (reg : List cmd_info) (st : rlst)
    (rest : List Nat) :
    clever_readline_step cfg reg st (27 :: 91 :: 65 :: rest) =
      rlres.next (upStep cfg st) rest := by
  simp [clever_readline_step, edit_step, upStep, prevPos]

theorem slots_len_set_fn (hist : List (List Nat)) (M i : Nat)
    (f : List Nat → List Nat) (hf : ∀ s, (f s).length = s.length)
    (h : ∀ s ∈ hist, s.length = M) :
    ∀ s ∈ hist.set i (f (hist.getD i [])), s.length = M := by
  apply slots_len_set _ _ _ _ h
  intro hi
  rw [hf]
  exact h _ (getD_mem _ _ _ hi)

theorem tab_step_sinv {cfg : rlcfg} {reg : List cmd_info} {st : rlst}
    {rest : List Nat} {st1 : rlst} {r1 : List Nat}
    (h : tab_step cfg reg st rest = rlres.next st1 r1)
    (hinv : rl_sinv cfg st) : rl_sinv cfg st1 := by
  obtain ⟨h1, h2, h3, h4⟩ := hinv
  simp only [tab_step] at h
  split at h
  · simp only [rlres.next.injEq] at h
    obtain ⟨hX, -⟩ := h
    subst hX
    exact ⟨h1, h2, h3, h4⟩
  · split at h <;>
      (simp only [rlres.next.injEq] at h
       obtain ⟨hX, -⟩ := h
       subst hX
       refine ⟨h1, h2, by simpa using h3, ?_⟩
       apply slots_len_set _ _ _ _ h4
       intro hi
       simp only [List.length_set, tab_insert_length, slotAt]
       exact h4 _ (getD_mem _ _ _ hi))

theorem tab_step_result (cfg : rlcfg) (reg : List cmd_info) (st : rlst)
    (rest : List Nat) :
    ∃ st1, tab_step cfg reg st rest = rlres.next st1 rest := by
  simp only [tab_step]
  split
  · exact ⟨_, rfl⟩
  · split
    · exact ⟨_, rfl⟩
    · exact ⟨_, rfl⟩

theorem edit_step_sinv {cfg : rlcfg} {reg : List cmd_info} {st : rlst}
    {c : Nat} {rest : List Nat} {st1 : rlst} {r1 : List Nat}
    (h : edit_step cfg reg st c rest = rlres.next st1 r1)
    (hinv : rl_sinv cfg st) : rl_sinv cfg st1 := by
  obtain ⟨h1, h2, h3, h4⟩ := hinv
  have hH : 0 < cfg.H := by omega
  unfold edit_step at h
  by_cases hc8 : c = 8
  · rw [if_pos hc8] at h
    split at h <;> (simp only [rlres.next.injEq] at h; obtain ⟨hX, -⟩ := h; subst hX)
    · exact ⟨h1, h2, h3, h4⟩
    · refine ⟨h1, h2, by simpa using h3, ?_⟩
      exact slots_len_set_fn _ _ _ _ (fun s => shift_left_length s _ _) h4
  · rw [if_neg hc8] at h
    by_cases hc9 : c = 9
    · rw [if_pos hc9] at h
      exact tab_step_sinv h ⟨h1, h2, h3, h4⟩
    · rw [if_neg hc9] at h
      by_cases hc27 : c = 27
      · rw [if_pos hc27] at h
        split at h
        · split at h
          · simp only [rlres.next.injEq] at h
            obtain ⟨hX, -⟩ := h
            subst hX
            exact ⟨h1, h2, h3, h4⟩
          · split at h
            · split at h
              · split at h
                · split at h <;>
                    (simp only [rlres.next.injEq] at h
                     obtain ⟨hX, -⟩ := h
                     subst hX)
                  · exact ⟨h1, h2, h3, h4⟩
                  · refine ⟨h1, h2, by simpa using h3, ?_⟩
                    exact slots_len_set_fn _ _ _ _
                      (fun s => shift_left_length s _ _) h4
                · simp only [rlres.next.injEq] at h
                  obtain ⟨hX, -⟩ := h
                  subst hX
                  exact ⟨h1, h2, h3, h4⟩
              · simp at h
            · split at h
              · simp only [rlres.next.injEq] at h
                obtain ⟨hX, -⟩ := h
                subst hX
                exact ⟨h1, h2, h3, h4⟩
              · split at h
                · simp only [rlres.next.injEq] at h
                  obtain ⟨hX, -⟩ := h
                  subst hX
                  exact ⟨h1, h2, h3, h4⟩
                · split at h
                  · simp only [rlres.next.injEq] at h
                    obtain ⟨hX, -⟩ := h
                    subst hX
                    split <;> exact ⟨h1, h2, h3, h4⟩
                  · split at h
                    · simp only [rlres.next.injEq] at h
                      obtain ⟨hX, -⟩ := h
                      subst hX
                      split <;> exact ⟨h1, h2, h3, h4⟩
                    · split at h
                      · simp only [rlres.next.injEq] at h
                        obtain ⟨hX, -⟩ := h
                        subst hX
                        refine ⟨rfl, ?_, h3, h4⟩
                        dsimp only
                        split
                        · split
                          · omega
                          · exact Nat.mod_lt _ hH
                        · exact Nat.mod_lt _ hH
                      · simp only [rlres.next.injEq] at h
                        obtain ⟨hX, -⟩ := h
                        subst hX
                        exact ⟨h1, h2, h3, h4⟩
        · simp at h
      · rw [if_neg hc27] at h
        split at h <;> (simp only [rlres.next.injEq] at h; obtain ⟨hX, -⟩ := h; subst hX)
        · exact ⟨h1, h2, h3, h4⟩
        · refine ⟨h1, h2, by simpa using h3, ?_⟩
          exact slots_len_set_fn _ _ _ _ (fun s => insert_char_length s _ _) h4

theorem getD_oob {α} (l : List α) (i : Nat) (d : α) (h : l.length ≤ i) :
    l.getD i d = d := by
  induction l generalizing i with
  | nil => simp
  | cons x xs ih =>
    cases i with
    | zero => simp at h
    | succ m => simpa using ih m (by simpa using h)

theorem getD_set_self {α} (l : List α) (i : Nat) (v d : α) (h : i < l.length) :
    (l.set i v).getD i d = v := by
  induction l generalizing i with
  | nil => simp at h
  | cons x xs ih =>
    cases i with
    | zero => simp
    | succ m => simpa using ih m (by simpa using h)

theorem cstrlen_getD_le (hist : List (List Nat)) (M i : Nat)
    (h : ∀ s ∈ hist, s.length = M) : cstrlen (hist.getD i []) ≤ M := by
  by_cases hi : i < hist.length
  · exact le_of_le_of_eq (cstrlen_le_length _) (h _ (getD_mem _ _ _ hi))
  · rw [getD_oob _ _ _ (by omega)]
    simp [cstrlen]

theorem step_sinv {cfg : rlcfg} {reg : List cmd_info} {st : rlst}
    {inp : List Nat} {st1 : rlst} {r1 : List Nat}
    (h : clever_readline_step cfg reg st inp = rlres.next st1 r1)
    (hinv : rl_sinv cfg st) : rl_sinv cfg st1 := by
  match inp with
  | [] => simp [clever_readline_step] at h
  | c :: rest =>
    simp only [clever_readline_step] at h
    by_cases hc : c = 10
    · rw [if_pos hc] at h
      simp at h
    · rw [if_neg hc] at h
      exact edit_step_sinv h hinv

theorem tab_step_ne_done (cfg : rlcfg) (reg : List cmd_info) (st : rlst)
    (rest : List Nat) (st2 : rlst) (idx n : Nat) :
    tab_step cfg reg st rest ≠ rlres.done st2 idx n := by
  obtain ⟨st1, hst1⟩ := tab_step_result cfg reg st rest
  rw [hst1]
  simp

theorem edit_step_ne_done (cfg : rlcfg) (reg : List cmd_info) (st : rlst)
    (c : Nat) (rest : List Nat) (st2 : rlst) (idx n : Nat) :
    edit_step cfg reg st c rest ≠ rlres.done st2 idx n := by
  intro h
  unfold edit_step at h
  by_cases hc8 : c = 8
  · rw [if_pos hc8] at h
    split at h <;> exact rlres.noConfusion h
  · rw [if_neg hc8] at h
    by_cases hc9 : c = 9
    · rw [if_pos hc9] at h
      exact tab_step_ne_done _ _ _ _ _ _ _ h
    · rw [if_neg hc9] at h
      by_cases hc27 : c = 27
      · rw [if_pos hc27] at h
        split at h
        · repeat' split at h
          all_goals exact rlres.noConfusion h
        · exact rlres.noConfusion h
      · rw [if_neg hc27] at h
        split at h <;> exact rlres.noConfusion h

theorem step_done {cfg : rlcfg} {reg : List cmd_info} {st : rlst}
    {inp : List Nat} {st2 : rlst} {idx n : Nat}
    (h : clever_readline_step cfg reg st inp = rlres.done st2 idx n) :
    idx = st.cur ∧ n = st.curlen ∧
      st2 = ⟨st.hist.set st.cur ((slotAt st st.cur).set st.curlen 0),
        (if st.curlen = 0 then st.histpos else (st.histpos + 1) % cfg.H),
        st.cur, st.curlen, st.position⟩ := by
  match inp with
  | [] => simp [clever_readline_step] at h
  | c :: rest =>
    simp only [clever_readline_step] at h
    by_cases hc : c = 10
    · rw [if_pos hc] at h
      simp only [rlres.done.injEq] at h
      obtain ⟨hs, hi, hn⟩ := h
      exact ⟨hi.symm, hn.symm, hs.symm⟩
    · rw [if_neg hc] at h
      exact absurd h (edit_step_ne_done _ _ _ _ _ _ _ _)

theorem edit_step_rl_inv (cfg : rlcfg) (reg : List cmd_info) (st : rlst)
    (c : Nat) (rest : List Nat) (hc9 : c ≠ 9) (hinv : rl_inv cfg st) :
    rl_inv cfg (rl_res_st (edit_step cfg reg st c rest)) := by
  obtain ⟨h1, h2, h3⟩ := hinv
  unfold edit_step
  by_cases hc8 : c = 8
  · rw [if_pos hc8]
    split
    · exact ⟨h1, h2, h3⟩
    · refine ⟨?_, ?_, ?_⟩
      · dsimp only [rl_res_st]; omega
      · dsimp only [rl_res_st]; omega
      · dsimp only [rl_res_st]
        exact slots_len_set_fn _ _ _ _ (fun s => shift_left_length s _ _) h3
  · rw [if_neg hc8]
    by_cases hc9c : c = 9
    · exact absurd hc9c hc9
    · rw [if_neg hc9c]
      by_cases hc27 : c = 27
      · rw [if_pos hc27]
        split
        · split
          · exact ⟨h1, h2, h3⟩
          · split
            · split
              · split
                · split
                  · exact ⟨h1, h2, h3⟩
                  · rename_i hne
                    refine ⟨?_, ?_, ?_⟩
                    · dsimp only [rl_res_st]; omega
                    · dsimp only [rl_res_st]; omega
                    · dsimp only [rl_res_st]
                      exact slots_len_set_fn _ _ _ _
                        (fun s => shift_left_length s _ _) h3
                · exact ⟨h1, h2, h3⟩
              · exact ⟨h1, h2, h3⟩
            · split
              · exact ⟨by dsimp only [rl_res_st]; omega, h2, h3⟩
              · split
                · exact ⟨by dsimp only [rl_res_st]; omega, h2, h3⟩
                · split
                  · split
                    · refine ⟨?_, h2, h3⟩
                      dsimp only [rl_res_st]; omega
                    · exact ⟨h1, h2, h3⟩
                  · split
                    · split
                      · rename_i hlt
                        refine ⟨?_, h2, h3⟩
                        dsimp only [rl_res_st]; omega
                      · exact ⟨h1, h2, h3⟩
                    · split
                      · refine ⟨le_rfl, ?_, h3⟩
                        dsimp only [rl_res_st]
                        exact cstrlen_getD_le _ _ _ h3
                      · exact ⟨h1, h2, h3⟩
        · exact ⟨h1, h2, h3⟩
      · rw [if_neg hc27]
        split
        · exact ⟨h1, h2, h3⟩
        · rename_i hmax
          refine ⟨?_, ?_, ?_⟩
          · dsimp only [rl_res_st]; omega
          · dsimp only [rl_res_st]; omega
          · dsimp only [rl_res_st]
            exact slots_len_set_fn _ _ _ _ (fun s => insert_char_length s _ _) h3

/-- Claim C7, counterexample: with a four-byte line buffer, one registered
command named aaaxy, and the operator typing aaa followed by tab, the
completion hint xy is truncated to one inserted byte by the buffer limit, but
the caret still advances by the full hint length: the session reaches an
observable state with caret position 5 and line length 4, violating
caret ≤ length. -/
theorem C7_cex :
    (rl_res_st (clever_readline ⟨4, 1, fun t => (0, t)⟩
        [⟨0, [97, 97, 97, 120, 121], [], 0, []⟩]
        ⟨[[0, 0, 0, 0]], 0, 0, 0, 0⟩ [97, 97, 97, 9])).position = 5 ∧
      (rl_res_st (clever_readline ⟨4, 1, fun t => (0, t)⟩
        [⟨0, [97, 97, 97, 120, 121], [], 0, []⟩]
        ⟨[[0, 0, 0, 0]], 0, 0, 0, 0⟩ [97, 97, 97, 9])).curlen = 4 ∧
      ¬ rl_inv ⟨4, 1, fun t => (0, t)⟩
        (rl_res_st (clever_readline ⟨4, 1, fun t => (0, t)⟩
          [⟨0, [97, 97, 97, 120, 121], [], 0, []⟩]
          ⟨[[0, 0, 0, 0]], 0, 0, 0, 0⟩ [97, 97, 97, 9])) := by
  refine ⟨by decide, by decide, by decide⟩

/-- Claim C7, amended: every input other than tab preserves the invariant
caret ≤ current length ≤ maximum length (together with the fixed ring-row
size); in particular a printable byte arriving when the buffer is at maximum
length is consumed with no state change and no error.  A tab whose completion
hint is truncated by the buffer limit can push the caret beyond the length
(the caret advances by the full hint length even when fewer bytes were
inserted), which is the only violation of the invariant. -/
theorem C7_thm (cfg : rlcfg) (reg : List cmd_info) (st : rlst) :
    (∀ inp : List Nat, inp.head? ≠ some 9 → rl_inv cfg st →
        rl_inv cfg (rl_res_st (clever_readline_step cfg reg st inp)))
    ∧ ∀ (c : Nat) (rest : List Nat), c ≠ 10 → c ≠ 8 → c ≠ 9 → c ≠ 27 →
        cfg.M ≤ st.curlen →
        clever_readline_step cfg reg st (c :: rest) = rlres.next st rest := by
  constructor
  · intro inp htab hinv
    match inp with
    | [] => exact hinv
    | c :: rest =>
      have hc9 : c ≠ 9 := by simpa using htab
      simp only [clever_readline_step]
      by_cases hc : c = 10
      · rw [if_pos hc]
        obtain ⟨hi1, hi2, hi3⟩ := hinv
        refine ⟨hi1, hi2, ?_⟩
        dsimp only [rl_res_st, slotAt]
        exact slots_len_set_fn _ _ st.cur (fun s => s.set st.curlen 0)
          (fun s => by simp) hi3
      · rw [if_neg hc]
        exact edit_step_rl_inv cfg reg st c rest hc9 hinv
  · intro c rest hc10 hc8 hc9 hc27 hmax
    simp [clever_readline_step, edit_step, hc10, hc8, hc9, hc27, hmax]

/-- Claim C7, witness for the amended theorem: a printable byte preserves the
invariant, and a printable byte at a full buffer is ignored. -/
theorem C7_wit :
    rl_inv ⟨4, 1, fun t => (0, t)⟩
      (rl_res_st (clever_readline_step ⟨4, 1, fun t => (0, t)⟩ []
        ⟨[[0, 0, 0, 0]], 0, 0, 0, 0⟩ [97])) ∧
      clever_readline_step ⟨1, 1, fun t => (0, t)⟩ [] ⟨[[97]], 0, 0, 1, 1⟩ [98] =
        rlres.next ⟨[[97]], 0, 0, 1, 1⟩ [] := by
  constructor
  · exact (C7_thm ⟨4, 1, fun t => (0, t)⟩ [] ⟨[[0, 0, 0, 0]], 0, 0, 0, 0⟩).1
      [97] (by decide) (by decide)
  · exact (C7_thm ⟨1, 1, fun t => (0, t)⟩ [] ⟨[[97]], 0, 0, 1, 1⟩).2
      98 [] (by decide) (by decide) (by decide) (by decide) (by decide)

/-- Claim C10: whenever a line-read run finishes (newline consumed), the
returned line is a row of the history ring (`idx < H`); the history write
position is advanced circularly for a non-empty line and left unchanged for an
empty one — so after an empty submission the next session edits the very same
ring row — and the returned row carries a NUL terminator at the line's
length. -/
theorem C10_thm (cfg : rlcfg) (reg : List cmd_info) (fuel : Nat) (st : rlst)
    (inp : List Nat) (st2 : rlst) (idx n : Nat)
    (hinv : rl_sinv cfg st)
    (hrun : rl_run cfg reg fuel st inp = rlres.done st2 idx n) :
    idx < cfg.H ∧
      st2.histpos = (if n = 0 then idx else (idx + 1) % cfg.H) ∧
      cidx (st2.hist.getD idx []) n = 0 := by
  induction fuel generalizing st inp with
  | zero => simp [rl_run] at hrun
  | succ f ih =>
    rw [rl_run] at hrun
    cases hstep : clever_readline_step cfg reg st inp with
    | next st1 rest =>
      rw [hstep] at hrun
      exact ih st1 rest (step_sinv hstep hinv) hrun
    | empty st3 =>
      rw [hstep] at hrun
      exact absurd hrun (by simp)
    | done st3 idx3 n3 =>
      rw [hstep] at hrun
      simp only [rlres.done.injEq] at hrun
      obtain ⟨rfl, rfl, rfl⟩ := hrun
      obtain ⟨hidx, hn, hst⟩ := step_done hstep
      obtain ⟨h1, h2, h3, h4⟩ := hinv
      subst hidx hn hst
      refine ⟨by omega, by simp [h1], ?_⟩
      have hcur : st.cur < st.hist.length := by omega
      rw [show (⟨st.hist.set st.cur ((slotAt st st.cur).set st.curlen 0),
          (if st.curlen = 0 then st.histpos else (st.histpos + 1) % cfg.H),
          st.cur, st.curlen, st.position⟩ : rlst).hist =
        st.hist.set st.cur ((slotAt st st.cur).set st.curlen 0) from rfl]
      rw [getD_set_self _ _ _ _ (by simpa using hcur)]
      exact cidx_set_self _ _

/-- Claim C10, witness: an empty-line session leaves the write position
unchanged and the returned ring row is NUL-terminated at length 0. -/
theorem C10_wit :
    (0 : Nat) < 2 ∧
      (rlst.mk [[0, 0, 0, 0], [0, 0, 0, 0]] 0 0 0 0).histpos =
        (if (0 : Nat) = 0 then 0 else (0 + 1) % 2) ∧
      cidx ((rlst.mk [[0, 0, 0, 0], [0, 0, 0, 0]] 0 0 0 0).hist.getD 0 []) 0 = 0 :=
  C10_thm ⟨4, 2, fun t => (0, t)⟩ [] 2 ⟨[[0, 0, 0, 0], [0, 0, 0, 0]], 0, 0, 0, 0⟩
    [10] ⟨[[0, 0, 0, 0], [0, 0, 0, 0]], 0, 0, 0, 0⟩ 0 0 (by decide) (by decide)

/-! ### Lemmas about typed rows and session runs (history claims) -/
theorem rl_run_succ (cfg : rlcfg) (reg : List cmd_info) (f : Nat) (st : rlst)
    (inp : List Nat) :
    rl_run cfg reg (f + 1) st inp =
      match clever_readline_step cfg reg st inp with
      | rlres.next st1 rest => rl_run cfg reg f st1 rest
      | r => r := rfl

theorem rl_run_done (cfg : rlcfg) (reg : List cmd_info) (f : Nat) (st : rlst)
    (inp : List Nat) (st2 : rlst) (idx n : Nat)
    (h : clever_readline_step cfg reg st inp = rlres.done st2 idx n) :
    rl_run cfg reg (f + 1) st inp = rlres.done st2 idx n := by
  rw [rl_run_succ, h]

theorem rl_run_next (cfg : rlcfg) (reg : List cmd_info) (f : Nat) (st : rlst)
    (inp : List Nat) (st1 : rlst) (rest : List Nat)
    (h : clever_readline_step cfg reg st inp = rlres.next st1 rest) :
    rl_run cfg reg (f + 1) st inp = rl_run cfg reg f st1 rest := by
  rw [rl_run_succ, h]

theorem rl_run_nil (cfg : rlcfg) (reg : List cmd_info) (f : Nat) (st : rlst) :
    rl_run cfg reg f st [] = rlres.empty st := by
  cases f with
  | zero => rfl
  | succ f => rw [rl_run_succ]; rfl

theorem cstrlen_pad (w : List Nat) (m : Nat) (h : ∀ c ∈ w, c ≠ 0) :
    cstrlen (w ++ List.replicate m 0) = w.length := by
  induction w with
  | nil =>
    cases m with
    | zero => rfl
    | succ k => simp [cstrlen]
  | cons c w ih =>
    have hc : c ≠ 0 := h c (by simp)
    simp [cstrlen, hc, ih (fun x hx => h x (by simp [hx]))]

theorem cstr_val_pad (w : List Nat) (m : Nat) (h : ∀ c ∈ w, c ≠ 0) :
    cstr_val (w ++ List.replicate m 0) = w := by
  induction w with
  | nil =>
    cases m with
    | zero => rfl
    | succ k => simp [cstr_val]
  | cons c w ih =>
    have hc : c ≠ 0 := h c (by simp)
    have h2 := ih (fun x hx => h x (by simp [hx]))
    simp only [cstr_val] at h2 ⊢
    simpa [List.takeWhile_cons, hc] using h2

theorem replicate_zero_getD (k n : Nat) : (List.replicate k 0).getD n (0 : Nat) = 0 := by
  induction k generalizing n with
  | zero => simp
  | succ k ih =>
    cases n with
    | zero => simp [List.replicate_succ]
    | succ j =>
      simp only [List.replicate_succ, List.getD_cons_succ]
      exact ih j

theorem pad_getD_zero (w : List Nat) (m n : Nat) (h : w.length ≤ n) :
    (w ++ List.replicate m 0).getD n 0 = 0 := by
  induction w generalizing n with
  | nil => simpa using replicate_zero_getD m n
  | cons x xs ih =>
    cases n with
    | zero => simp at h
    | succ j => simpa using ih j (by simpa using h)

theorem set_append_len {α} (xs ys : List α) (v : α) :
    (xs ++ ys).set xs.length v = xs ++ ys.set 0 v := by
  induction xs with
  | nil => simp
  | cons x xs ih => simp [ih]

theorem pad_set (w : List Nat) (M c : Nat) (h : w.length < M) :
    (w ++ List.replicate (M - w.length) 0).set w.length c =
      (w ++ [c]) ++ List.replicate (M - (w.length + 1)) 0 := by
  rw [set_append_len]
  have hm : M - w.length = (M - (w.length + 1)) + 1 := by omega
  rw [hm, List.replicate_succ]
  simp

/-- Typing a sequence of plain bytes into a session whose row currently holds
`pre` followed by zero padding, then newline: the session finishes, the row
holds the typed line with its padding, the write cursor advances circularly
exactly when the line is non-empty. -/
theorem typing_run (cfg : rlcfg) (reg : List cmd_info) :
    ∀ (w2 : List Nat) (fuel : Nat) (st : rlst) (pre : List Nat),
    w2.length + 1 ≤ fuel →
    st.cur < st.hist.length →
    slotAt st st.cur = pre ++ List.replicate (cfg.M - pre.length) 0 →
    st.curlen = pre.length → st.position = pre.length →
    (∀ c ∈ pre, c ≠ 0) → (∀ c ∈ w2, plain_byte c) →
    pre.length + w2.length ≤ cfg.M →
    rl_run cfg reg fuel st (w2 ++ [10]) =
      rlres.done
        ⟨st.hist.set st.cur
            ((pre ++ w2) ++ List.replicate (cfg.M - (pre.length + w2.length)) 0),
          (if pre.length + w2.length = 0 then st.histpos
           else (st.histpos + 1) % cfg.H),
          st.cur, pre.length + w2.length, pre.length + w2.length⟩
        st.cur (pre.length + w2.length) := by
  intro w2
  induction w2 with
  | nil =>
    intro fuel st pre hf hcur hslot hlen hpos hpre hw htot
    match fuel, hf with
    | f + 1, _ =>
      rw [show (([] : List Nat) ++ [10]) = [10] from rfl,
        rl_run_done cfg reg f st [10] _ _ _ (step_newline cfg reg st [])]
      have hset : (slotAt st st.cur).set st.curlen 0 = slotAt st st.cur := by
        rw [hslot, hlen]
        exact set_getD_eq _ _ _ (pad_getD_zero _ _ _ le_rfl)
      rw [hset, hslot, hlen, hpos]
      simp
  | cons c w2 ih =>
    intro fuel st pre hf hcur hslot hlen hpos hpre hw htot
    match fuel, hf with
    | f + 1, hf =>
      obtain ⟨hc0, hc8, hc9, hc10, hc27⟩ := hw c (by simp)
      have hltM : pre.length < cfg.M := by
        simp only [List.length_cons] at htot
        omega
      have hlt : st.curlen < cfg.M := by rw [hlen]; exact hltM
      rw [show ((c :: w2) ++ [10] : List Nat) = c :: (w2 ++ [10]) from rfl,
        rl_run_next cfg reg f st _ _ _
          (step_printable cfg reg st c (w2 ++ [10]) hc10 hc8 hc9 hc27 hlt)]
      have hins : insert_char (slotAt st st.cur) c st.position =
          (pre ++ [c]) ++ List.replicate (cfg.M - (pre ++ [c]).length) 0 := by
        rw [insert_char, hslot, hpos, cstrlen_pad _ _ hpre, Nat.sub_self]
        simp only [shiftup_go, List.length_append, List.length_singleton]
        exact pad_set pre cfg.M c hltM
      simp only [slotAt] at hins
      rw [ih f _ (pre ++ [c])
        (by simpa using Nat.le_of_succ_le_succ (by simpa using hf))
        (by simpa using hcur)
        (by
          dsimp only [slotAt]
          rw [getD_set_self _ _ _ _ hcur, hins])
        (by simp [hlen]) (by simp [hpos])
        (by
          intro x hx
          rcases List.mem_append.mp hx with h1 | h2
          · exact hpre x h1
          · simp at h2
            rw [h2]
            exact hc0)
        (fun x hx => hw x (by simp [hx]))
        (by
          simp only [List.length_cons] at htot
          simp
          omega)]
      have harith : (pre ++ [c]).length + w2.length = pre.length + (c :: w2).length := by
        simp
        omega
      rw [List.set_set, harith, List.append_assoc]
      simp

theorem getD_append_lt {α} (xs ys : List α) (i : Nat) (d : α)
    (h : i < xs.length) : (xs ++ ys).getD i d = xs.getD i d := by
  induction xs generalizing i with
  | nil => simp at h
  | cons x xs ih =>
    cases i with
    | zero => simp
    | succ j => simpa using ih j (by simpa using h)

theorem getD_append_ge {α} (xs ys : List α) (i : Nat) (d : α)
    (h : xs.length ≤ i) : (xs ++ ys).getD i d = ys.getD (i - xs.length) d := by
  induction xs generalizing i with
  | nil => simp
  | cons x xs ih =>
    cases i with
    | zero => simp at h
    | succ j =>
      simpa [Nat.succ_sub_succ] using ih j (by simpa using h)

theorem getD_map_lt {α β} (f : α → β) (ws : List α) (i : Nat) (d : α) (d2 : β)
    (h : i < ws.length) : (ws.map f).getD i d2 = f (ws.getD i d) := by
  induction ws generalizing i with
  | nil => simp at h
  | cons x xs ih =>
    cases i with
    | zero => simp
    | succ j => simpa using ih j (by simpa using h)

theorem replicate_getD_lt {α} (k j : Nat) (v d : α) (h : j < k) :
    (List.replicate k v).getD j d = v := by
  induction k generalizing j with
  | zero => simp at h
  | succ k ih =>
    cases j with
    | zero => simp [List.replicate_succ]
    | succ m =>
      simp only [List.replicate_succ, List.getD_cons_succ]
      exact ih m (by omega)

theorem set_append_len2 {α} (xs ys : List α) (v : α) (n : Nat)
    (h : n = xs.length) : (xs ++ ys).set n v = xs ++ ys.set 0 v := by
  subst h
  exact set_append_len xs ys v

theorem mkhist_length (cfg : rlcfg) (ws : List (List Nat))
    (h : ws.length ≤ cfg.H) : (mkhist cfg ws).length = cfg.H := by
  simp [mkhist]
  omega

theorem mkhist_getD_lt (cfg : rlcfg) (ws : List (List Nat)) (i : Nat)
    (h : i < ws.length) :
    (mkhist cfg ws).getD i [] = typed_slot cfg.M (ws.getD i []) := by
  unfold mkhist
  rw [getD_append_lt _ _ _ _ (by simpa using h)]
  exact getD_map_lt _ _ _ _ _ h

theorem mkhist_getD_ge (cfg : rlcfg) (ws : List (List Nat)) (i : Nat)
    (h1 : ws.length ≤ i) (h2 : i < cfg.H) :
    (mkhist cfg ws).getD i [] = List.replicate cfg.M 0 := by
  unfold mkhist
  rw [getD_append_ge _ _ _ _ (by simpa using h1)]
  exact replicate_getD_lt _ _ _ _ (by simp; omega)

theorem mkhist_set_snoc (cfg : rlcfg) (ws : List (List Nat)) (w : List Nat)
    (h : ws.length < cfg.H) :
    (mkhist cfg ws).set ws.length (typed_slot cfg.M w) = mkhist cfg (ws ++ [w]) := by
  unfold mkhist
  rw [set_append_len2 _ _ _ _ (by simp)]
  have hm : cfg.H - ws.length = (cfg.H - (ws.length + 1)) + 1 := by omega
  rw [hm, List.replicate_succ]
  simp

theorem submit_run (cfg : rlcfg) (reg : List cmd_info) (st : rlst) (w : List Nat)
    (hcur : st.histpos < st.hist.length)
    (hslot : st.hist.getD st.histpos [] = List.replicate cfg.M 0)
    (hw : plain_line cfg.M w) :
    submit cfg reg st w =
      ⟨st.hist.set st.histpos (typed_slot cfg.M w), (st.histpos + 1) % cfg.H,
        st.histpos, w.length, w.length⟩ := by
  obtain ⟨hne, hlen, hpl⟩ := hw
  unfold submit clever_readline
  have hrun := typing_run cfg reg w ((w ++ [10]).length + 1) (rl_start st) []
    (by simp) (by simpa [rl_start] using hcur)
    (by simpa [rl_start, slotAt] using hslot)
    rfl rfl (by simp) hpl (by simpa using hlen)
  rw [hrun]
  have h0 : w.length ≠ 0 := by simpa using hne
  simp [rl_res_st, rl_start, typed_slot, h0]

theorem submitN_run (cfg : rlcfg) (reg : List cmd_info) :
    ∀ (rest done : List (List Nat)) (st : rlst),
    st.hist = mkhist cfg done →
    st.histpos = done.length % cfg.H →
    done.length + rest.length ≤ cfg.H →
    (∀ w ∈ rest, plain_line cfg.M w) →
    (submitN cfg reg rest st).hist = mkhist cfg (done ++ rest) ∧
      (submitN cfg reg rest st).histpos = (done ++ rest).length % cfg.H := by
  intro rest
  induction rest with
  | nil =>
    intro done st h1 h2 _ _
    exact ⟨by simpa [submitN] using h1, by simpa [submitN] using h2⟩
  | cons w rest ih =>
    intro done st h1 h2 hbound hpl
    have hdlt : done.length < cfg.H := by
      simp only [List.length_cons] at hbound
      omega
    have hmod : done.length % cfg.H = done.length := Nat.mod_eq_of_lt hdlt
    have hsub : submit cfg reg st w =
        ⟨st.hist.set done.length (typed_slot cfg.M w),
          (done.length + 1) % cfg.H, done.length, w.length, w.length⟩ := by
      rw [show (⟨st.hist.set done.length (typed_slot cfg.M w),
            (done.length + 1) % cfg.H, done.length, w.length, w.length⟩ : rlst) =
          ⟨st.hist.set st.histpos (typed_slot cfg.M w),
            (st.histpos + 1) % cfg.H, st.histpos, w.length, w.length⟩ from by
        rw [h2, hmod]]
      exact submit_run cfg reg st w
        (by rw [h1, h2, hmod, mkhist_length cfg done (by omega)]; exact hdlt)
        (by rw [h1, h2, hmod]; exact mkhist_getD_ge cfg done _ le_rfl hdlt)
        (hpl w (by simp))
    have hstep : submitN cfg reg (w :: rest) st =
        submitN cfg reg rest (submit cfg reg st w) := rfl
    rw [hstep, hsub]
    have := ih (done ++ [w])
      ⟨st.hist.set done.length (typed_slot cfg.M w),
        (done.length + 1) % cfg.H, done.length, w.length, w.length⟩
      (by
        show st.hist.set done.length (typed_slot cfg.M w) = _
        rw [h1, mkhist_set_snoc cfg done w hdlt])
      (by simp)
      (by simp at hbound ⊢; omega)
      (fun x hx => hpl x (by simp [hx]))
    simpa using this

theorem upBytes_length (k : Nat) : (upBytes k).length = 3 * k := by
  induction k with
  | zero => rfl
  | succ k ih => simp [upBytes, ih]; omega

theorem up_run (cfg : rlcfg) (reg : List cmd_info) :
    ∀ (k fuel : Nat) (st : rlst), 3 * k + 1 ≤ fuel →
    rl_run cfg reg fuel st (upBytes k) = rlres.empty (upIterSt cfg k st) := by
  intro k
  induction k with
  | zero =>
    intro fuel st hf
    exact rl_run_nil cfg reg fuel st
  | succ k ih =>
    intro fuel st hf
    match fuel, hf with
    | f + 1, hf =>
      rw [show upBytes (k + 1) = 27 :: 91 :: 65 :: upBytes k from rfl,
        rl_run_next cfg reg f st _ _ _ (step_up cfg reg st (upBytes k)),
        ih f (upStep cfg st) (by omega)]
      rfl

theorem upIterSt_hist (cfg : rlcfg) :
    ∀ (k : Nat) (st : rlst), (upIterSt cfg k st).hist = st.hist := by
  intro k
  induction k with
  | zero => intro st; rfl
  | succ k ih => intro st; exact ih (upStep cfg st)

theorem upIterSt_histpos (cfg : rlcfg) :
    ∀ (k : Nat) (st : rlst),
    (upIterSt cfg k st).histpos = prevIter cfg.H k st.histpos := by
  intro k
  induction k with
  | zero => intro st; rfl
  | succ k ih => intro st; exact ih (upStep cfg st)

theorem upIterSt_pos (cfg : rlcfg) :
    ∀ (k : Nat) (st : rlst),
    upIterSt cfg (k + 1) st =
      ⟨st.hist, prevIter cfg.H (k + 1) st.histpos, prevIter cfg.H (k + 1) st.histpos,
        cstrlen (st.hist.getD (prevIter cfg.H (k + 1) st.histpos) []),
        cstrlen (st.hist.getD (prevIter cfg.H (k + 1) st.histpos) [])⟩ := by
  intro k
  induction k with
  | zero => intro st; rfl
  | succ k ih => intro st; exact ih (upStep cfg st)

theorem prevPos_eq (H p : Nat) (hH : 0 < H) (hp : p < H) :
    prevPos H p = (p + (H - 1)) % H := by
  unfold prevPos
  split
  · rename_i h0
    subst h0
    rw [Nat.zero_add, Nat.mod_eq_of_lt (by omega)]
  · rename_i h0
    rw [show p + (H - 1) = (p - 1) + H from by omega, Nat.add_mod_right]

theorem prevPos_lt (H p : Nat) (hH : 0 < H) : prevPos H p < H := by
  unfold prevPos
  split
  · omega
  · exact Nat.mod_lt _ hH

theorem prevIter_eq (H : Nat) (hH : 0 < H) :
    ∀ (k p : Nat), p < H → prevIter H k p = (p + k * (H - 1)) % H := by
  intro k
  induction k with
  | zero =>
    intro p hp
    simp [prevIter, Nat.mod_eq_of_lt hp]
  | succ k ih =>
    intro p hp
    show prevIter H k (prevPos H p) = _
    rw [ih (prevPos H p) (prevPos_lt H p hH), prevPos_eq H p hH hp,
      Nat.mod_add_mod]
    congr 1
    ring

/-- Claim C8: after the lines `ws` (N = `ws.length` ≤ ring capacity) are
submitted into a fresh console, a new session that presses Up k times
(1 ≤ k ≤ N) is editing ring row N - k, whose content is the k-th most recent
line — so N presses recover the N most recent lines in reverse submission
order — and for every k the history cursor sits at (N + k·(H-1)) mod H, i.e.
Up presses beyond the ring size wrap the cursor modulo the ring capacity; the
editor state after k + H presses equals the state after k presses. -/
theorem C8_thm (cfg : rlcfg) (reg : List cmd_info) (ws : List (List Nat))
    (hH : 0 < cfg.H) (hN : ws.length ≤ cfg.H)
    (hws : ∀ w ∈ ws, plain_line cfg.M w) :
    (∀ k, 1 ≤ k → k ≤ ws.length →
      (upRun cfg reg (submitN cfg reg ws (rl_init cfg)) k).cur = ws.length - k ∧
      cstr_val (slotAt (upRun cfg reg (submitN cfg reg ws (rl_init cfg)) k)
          (upRun cfg reg (submitN cfg reg ws (rl_init cfg)) k).cur) =
        ws.getD (ws.length - k) [] ∧
      (upRun cfg reg (submitN cfg reg ws (rl_init cfg)) k).curlen =
        (ws.getD (ws.length - k) []).length)
    ∧ (∀ k, (upRun cfg reg (submitN cfg reg ws (rl_init cfg)) k).histpos =
        (ws.length + k * (cfg.H - 1)) % cfg.H)
    ∧ ∀ k, 1 ≤ k →
        upRun cfg reg (submitN cfg reg ws (rl_init cfg)) (k + cfg.H) =
          upRun cfg reg (submitN cfg reg ws (rl_init cfg)) k := by
  obtain ⟨hhist, hpos⟩ := submitN_run cfg reg ws [] (rl_init cfg)
    (by simp [rl_init, mkhist]) (by simp [rl_init]) (by simpa using hN) hws
  simp only [List.nil_append, List.length_nil] at hhist hpos
  have hup : ∀ k, upRun cfg reg (submitN cfg reg ws (rl_init cfg)) k =
      upIterSt cfg k (rl_start (submitN cfg reg ws (rl_init cfg))) := by
    intro k
    unfold upRun clever_readline
    rw [up_run cfg reg k _ _ (by simp [upBytes_length])]
    rfl
  have hsp : (rl_start (submitN cfg reg ws (rl_init cfg))).histpos =
      ws.length % cfg.H := hpos
  have hsh : (rl_start (submitN cfg reg ws (rl_init cfg))).hist =
      mkhist cfg ws := hhist
  have hplt : (rl_start (submitN cfg reg ws (rl_init cfg))).histpos < cfg.H := by
    rw [hsp]
    exact Nat.mod_lt _ hH
  have hmul : ∀ k : Nat, k * (cfg.H - 1) + k = k * cfg.H := by
    intro k
    have h1 : cfg.H - 1 + 1 = cfg.H := by omega
    calc k * (cfg.H - 1) + k = k * ((cfg.H - 1) + 1) := by ring
      _ = k * cfg.H := by rw [h1]
  have hq : ∀ k, 1 ≤ k → k ≤ ws.length →
      prevIter cfg.H k (rl_start (submitN cfg reg ws (rl_init cfg))).histpos =
        ws.length - k := by
    intro k hk1 hk2
    rw [hsp, prevIter_eq cfg.H hH k _ (Nat.mod_lt _ hH), Nat.mod_add_mod]
    have h2 := hmul k
    rw [show ws.length + k * (cfg.H - 1) = (ws.length - k) + k * cfg.H from by omega,
      Nat.add_mul_mod_self_right]
    exact Nat.mod_eq_of_lt (by omega)
  refine ⟨?_, ?_, ?_⟩
  · intro k hk1 hk2
    rw [hup]
    match k, hk1, hk2 with
    | k + 1, _, hk2 =>
      rw [upIterSt_pos, hq (k + 1) (by omega) hk2]
      have hlt : ws.length - (k + 1) < ws.length := by omega
      have hslot2 : (rl_start (submitN cfg reg ws (rl_init cfg))).hist.getD
          (ws.length - (k + 1)) [] =
          typed_slot cfg.M (ws.getD (ws.length - (k + 1)) []) := by
        rw [hsh]
        exact mkhist_getD_lt cfg ws _ hlt
      obtain ⟨-, -, hnz⟩ := hws _ (getD_mem ws (ws.length - (k + 1)) [] hlt)
      refine ⟨rfl, ?_, ?_⟩
      · dsimp only [slotAt]
        rw [show ((⟨(rl_start (submitN cfg reg ws (rl_init cfg))).hist,
            ws.length - (k + 1), ws.length - (k + 1),
            cstrlen ((rl_start (submitN cfg reg ws (rl_init cfg))).hist.getD
              (ws.length - (k + 1)) []),
            cstrlen ((rl_start (submitN cfg reg ws (rl_init cfg))).hist.getD
              (ws.length - (k + 1)) [])⟩ : rlst)).hist =
          (rl_start (submitN cfg reg ws (rl_init cfg))).hist from rfl]
        rw [hslot2]
        exact cstr_val_pad _ _ (fun c hc => (hnz c hc).1)
      · show cstrlen ((rl_start (submitN cfg reg ws (rl_init cfg))).hist.getD
          (ws.length - (k + 1)) []) = _
        rw [hslot2]
        exact cstrlen_pad _ _ (fun c hc => (hnz c hc).1)
  · intro k
    rw [hup, upIterSt_histpos, hsp,
      prevIter_eq cfg.H hH k _ (Nat.mod_lt _ hH), Nat.mod_add_mod]
  · intro k hk1
    rw [hup, hup]
    match k, hk1 with
    | k + 1, _ =>
      rw [show k + 1 + cfg.H = (k + cfg.H) + 1 from by omega,
        upIterSt_pos, upIterSt_pos]
      have heq : prevIter cfg.H (k + cfg.H + 1)
            (rl_start (submitN cfg reg ws (rl_init cfg))).histpos =
          prevIter cfg.H (k + 1)
            (rl_start (submitN cfg reg ws (rl_init cfg))).histpos := by
        rw [prevIter_eq cfg.H hH _ _ hplt, prevIter_eq cfg.H hH _ _ hplt,
          show (rl_start (submitN cfg reg ws (rl_init cfg))).histpos +
              (k + cfg.H + 1) * (cfg.H - 1) =
            ((rl_start (submitN cfg reg ws (rl_init cfg))).histpos +
              (k + 1) * (cfg.H - 1)) + (cfg.H - 1) * cfg.H from by ring,
          Nat.add_mul_mod_self_right]
      rw [heq]

/-- Claim C8, witness: two lines a and b submitted into a two-row ring; one
Up press loads b (row 1), the cursor formula holds, and pressing Up twice more
than the capacity repeats the state. -/
theorem C8_wit :
    ((upRun cfg8 [] (submitN cfg8 [] [[97], [98]] (rl_init cfg8)) 1).cur =
        [[97], [98]].length - 1 ∧
      cstr_val (slotAt (upRun cfg8 [] (submitN cfg8 [] [[97], [98]] (rl_init cfg8)) 1)
          (upRun cfg8 [] (submitN cfg8 [] [[97], [98]] (rl_init cfg8)) 1).cur) =
        [[97], [98]].getD ([[97], [98]].length - 1) [] ∧
      (upRun cfg8 [] (submitN cfg8 [] [[97], [98]] (rl_init cfg8)) 1).curlen =
        ([[97], [98]].getD ([[97], [98]].length - 1) []).length) ∧
      (upRun cfg8 [] (submitN cfg8 [] [[97], [98]] (rl_init cfg8)) 3).histpos =
        ([[97], [98]].length + 3 * (cfg8.H - 1)) % cfg8.H ∧
      upRun cfg8 [] (submitN cfg8 [] [[97], [98]] (rl_init cfg8)) (1 + cfg8.H) =
        upRun cfg8 [] (submitN cfg8 [] [[97], [98]] (rl_init cfg8)) 1 := by
  have h := C8_thm cfg8 [] [[97], [98]] (by decide) (by decide) (by decide)
  exact ⟨h.1 1 (by decide) (by decide), h.2.1 3, h.2.2 1 (by decide)⟩
